import Mathlib

/-!
# Verification of the Voi audio pipeline

Shallow embedding of the audio utility functions of the repository
(base64 `decode`/`encode`, `createBlob`, `pcmToWav`, and the live-session
callbacks `onmessage`/`onclose` of `generateAudioFromText`), together with
proofs of the specified properties.

Bytes are modelled as `Nat` (values produced by `Uint8Array` are always
`< 256`; machine wrap-around is written explicitly as `% 256`, `% 65536`,
`% 4294967296` where the source relies on it).  JavaScript strings are
modelled as `List Char`.  Floating-point samples are modelled as `ℚ`:
every arithmetic step of `createBlob` after clamping into `[-1, 1]` is
exact in binary floating point (a 24-bit `Float32` mantissa times the
15-bit constant `32767` fits a 53-bit `Float64` mantissa exactly, and
`ToInt16` truncation is exact), so the rational model agrees with the
JavaScript semantics on every representable input.
-/

namespace Voi

/-! ## Little-endian machine-integer byte views

`DataView.setUint16`/`setUint32` with `littleEndian = true` store the value
modulo `2^16` / `2^32` in little-endian byte order. -/

/-- The two little-endian bytes stored by `DataView.setUint16 (_, v, true)`. -/
def u16le (v : Nat) : List Nat := [v % 256, v / 256 % 256]

/-- The four little-endian bytes stored by `DataView.setUint32 (_, v, true)`. -/
def u32le (v : Nat) : List Nat :=
  [v % 256, v / 256 % 256, v / 65536 % 256, v / 16777216 % 256]

/-- Read back a 4-byte little-endian field (used to state header-size facts). -/
def le32 : List Nat → Nat
  | [a, b, c, d] => a + 256 * b + 65536 * c + 16777216 * d
  | _ => 0

/-- `target.set(bytes, offset)` / consecutive `DataView` writes: overwrite
`bytes.length` bytes of `buf` starting at `offset`. -/
def writeBytes (buf : List Nat) (offset : Nat) (bytes : List Nat) : List Nat :=
  buf.take offset ++ bytes ++ buf.drop (offset + bytes.length)

/-! ## Base64 (`btoa` / `atob`)

`encode` builds a binary string from the bytes and calls `btoa`;
`decode` calls `atob` and reads the char codes back.  `btoa` is standard
base64; `atob` is WHATWG forgiving-base64 decode (strip ASCII whitespace,
strip up to two trailing `'='` when the length is a multiple of four,
fail on length ≡ 1 (mod 4) or on any character outside the alphabet).
`atob` throws on failure, modelled as `none`. -/

/-- Character of the standard base64 alphabet at index `i < 64`. -/
def b64Char (i : Nat) : Char :=
  if i < 26 then Char.ofNat (65 + i)
  else if i < 52 then Char.ofNat (97 + (i - 26))
  else if i < 62 then Char.ofNat (48 + (i - 52))
  else if i = 62 then '+' else '/'

/-- Index of a character in the base64 alphabet, `none` if not in it. -/
def b64Val (c : Char) : Option Nat :=
  let n := c.toNat
  if 65 ≤ n ∧ n ≤ 90 then some (n - 65)
  else if 97 ≤ n ∧ n ≤ 122 then some (n - 97 + 26)
  else if 48 ≤ n ∧ n ≤ 57 then some (n - 48 + 52)
  else if n = 43 then some 62
  else if n = 47 then some 63
  else none

/-- `encode(bytes)` = `btoa` of the binary string of the bytes:
three bytes become four alphabet characters, a final group of one or two
bytes is padded with `'='`. -/
def encodeB64 : List Nat → List Char
  | [] => []
  | [b0] => [b64Char (b0 / 4), b64Char (b0 % 4 * 16), '=', '=']
  | [b0, b1] => [b64Char (b0 / 4), b64Char (b0 % 4 * 16 + b1 / 16), b64Char (b1 % 16 * 4), '=']
  | b0 :: b1 :: b2 :: rest =>
      b64Char (b0 / 4) :: b64Char (b0 % 4 * 16 + b1 / 16) ::
        b64Char (b1 % 16 * 4 + b2 / 64) :: b64Char (b2 % 64) :: encodeB64 rest

/-- ASCII whitespace removed by forgiving-base64 decode. -/
def isB64Ws (c : Char) : Bool :=
  c.toNat = 9 || c.toNat = 10 || c.toNat = 12 || c.toNat = 13 || c.toNat = 32

/-- Remove up to two leading `'='` characters (helper working on the
reversed list). -/
def stripPadRev : List Char → List Char
  | '=' :: '=' :: r => r
  | '=' :: r => r
  | r => r

/-- Remove up to two trailing `'='` characters. -/
def stripPad (l : List Char) : List Char := (stripPadRev l.reverse).reverse

/-- Map every character to its alphabet index; fail if any is outside the
alphabet (this is what makes `atob` throw on a malformed chunk). -/
def mapB64Vals : List Char → Option (List Nat)
  | [] => some []
  | c :: cs =>
    match b64Val c, mapB64Vals cs with
    | some v, some vs => some (v :: vs)
    | _, _ => none

/-- Reassemble bytes from 6-bit groups: four groups give three bytes, a
final group of two (resp. three) gives one (resp. two) bytes, leftover
bits discarded (forgiving-base64). -/
def b64Assemble : List Nat → List Nat
  | a :: b :: c :: d :: rest =>
      (a * 4 + b / 16) :: (b % 16 * 16 + c / 4) :: (c % 4 * 64 + d) :: b64Assemble rest
  | [a, b] => [a * 4 + b / 16]
  | [a, b, c] => [a * 4 + b / 16, b % 16 * 16 + c / 4]
  | _ => []

/-- `decode(base64)` = `atob(base64)` followed by reading the char codes
into a `Uint8Array`; `none` models the `InvalidCharacterError` throw. -/
def decodeB64 (s : List Char) : Option (List Nat) :=
  let data := s.filter (fun c => ! isB64Ws c)
  let data2 := if data.length % 4 = 0 then stripPad data else data
  if data2.length % 4 = 1 then none
  else (mapB64Vals data2).map b64Assemble

/-! ## PCM encoder (`createBlob`) -/

/-- `Math.max(-1, Math.min(1, s))`. -/
def clamp01 (s : ℚ) : ℚ := max (-1) (min 1 s)

/-- JavaScript `ToInt16` truncation step: round toward zero. -/
def truncTowardZero (q : ℚ) : Int := if 0 ≤ q then ⌊q⌋ else ⌈q⌉

/-- Wrap an integer into the signed 16-bit range (second `ToInt16` step;
`Int16Array` element assignment). -/
def toInt16 (v : Int) : Int := (v + 32768) % 65536 - 32768

/-- The 16-bit value stored for one sample:
`int16[i] = Math.max(-1, Math.min(1, data[i])) * 32767`. -/
def pcmSample (s : ℚ) : Int := toInt16 (truncTowardZero (clamp01 s * 32767))

/-- Little-endian byte pair of an `Int16Array` element as seen through
`new Uint8Array(int16.buffer)`. -/
def int16leBytes (v : Int) : List Nat :=
  [((v + 65536) % 65536).toNat % 256, ((v + 65536) % 65536).toNat / 256]

/-- The raw PCM bytes of `createBlob`: two little-endian bytes per sample. -/
def encodePcm (samples : List ℚ) : List Nat :=
  (samples.map (fun s => int16leBytes (pcmSample s))).flatten

/-- The object returned by `createBlob`. -/
structure GenAIBlob where
  data : List Char
  mimeType : List Char

/-- `createBlob(data)`: base64-encode the PCM bytes and attach the fixed
MIME type. -/
def createBlob (samples : List ℚ) : GenAIBlob :=
  { data := encodeB64 (encodePcm samples), mimeType := "audio/pcm;rate=16000".toList }

/-! ## WAV container writer (`pcmToWav`) -/

/-- `pcmToWav(pcmData)`: allocate a zero `ArrayBuffer` of `44 + dataSize`
bytes and perform the thirteen header writes followed by the payload copy,
exactly as the source does (sample rate, channel count and bit depth are
hardcoded constants in the source). -/
def pcmToWav (pcmData : List Nat) : List Nat :=
  let sampleRate := 24000
  let numChannels := 1
  let bitsPerSample := 16
  let byteRate := sampleRate * numChannels * bitsPerSample / 8
  let blockAlign := numChannels * bitsPerSample / 8
  let dataSize := pcmData.length
  let buffer := List.replicate (44 + dataSize) 0
  let buffer := writeBytes buffer 0 [82, 73, 70, 70]
  let buffer := writeBytes buffer 4 (u32le (36 + dataSize))
  let buffer := writeBytes buffer 8 [87, 65, 86, 69]
  let buffer := writeBytes buffer 12 [102, 109, 116, 32]
  let buffer := writeBytes buffer 16 (u32le 16)
  let buffer := writeBytes buffer 20 (u16le 1)
  let buffer := writeBytes buffer 22 (u16le numChannels)
  let buffer := writeBytes buffer 24 (u32le sampleRate)
  let buffer := writeBytes buffer 28 (u32le byteRate)
  let buffer := writeBytes buffer 32 (u16le blockAlign)
  let buffer := writeBytes buffer 34 (u16le bitsPerSample)
  let buffer := writeBytes buffer 36 [100, 97, 116, 97]
  let buffer := writeBytes buffer 40 (u32le dataSize)
  let buffer := writeBytes buffer 44 pcmData
  buffer

/-- Modelled from the spec (§4.3 contract `toWav(pcmPayload, sampleRate,
channels, bitsPerSample)`): the *parametric* WAV writer the specification
prescribes, writing the supplied format values into the header per the
fixed offset table.  The source has no such parametric function
(`pcmToWav` takes only the payload); this definition exists to compare
the source against the spec's contract. -/
def toWav (pcmPayload : List Nat) (sampleRate numChannels bitsPerSample : Nat) : List Nat :=
  let byteRate := sampleRate * numChannels * bitsPerSample / 8
  let blockAlign := numChannels * bitsPerSample / 8
  let dataSize := pcmPayload.length
  [82, 73, 70, 70] ++ u32le (36 + dataSize) ++ [87, 65, 86, 69] ++
    [102, 109, 116, 32] ++ u32le 16 ++ u16le 1 ++ u16le numChannels ++
    u32le sampleRate ++ u32le byteRate ++ u16le blockAlign ++ u16le bitsPerSample ++
    [100, 97, 116, 97] ++ u32le dataSize ++ pcmPayload

/-- The 44 header bytes `pcmToWav` produces for a payload of length `n`
(24000 Hz, mono, 16-bit: byte rate 48000, block align 2). -/
def wavHeader (n : Nat) : List Nat :=
  [82, 73, 70, 70] ++ u32le (36 + n) ++ [87, 65, 86, 69] ++
    [102, 109, 116, 32] ++ u32le 16 ++ u16le 1 ++ u16le 1 ++
    u32le 24000 ++ u32le 48000 ++ u16le 2 ++ u16le 16 ++
    [100, 97, 116, 97] ++ u32le n

/-! ## Session callbacks (`generateAudioFromText`)

The message shape is the one the handler reads through
`message.serverContent?.modelTurn?.parts[0]?.inlineData?.data`; each
optional level is an `Option`, `parts[0]` on a possibly-empty array is
`List.head?`. -/

structure InlineData where
  data : Option (List Char)

structure Part where
  inlineData : Option InlineData

structure ModelTurn where
  parts : List Part

structure ServerContent where
  modelTurn : Option ModelTurn
  turnComplete : Bool

structure LiveServerMessage where
  serverContent : Option ServerContent

/-- The optional chain
`message.serverContent?.modelTurn?.parts[0]?.inlineData?.data`. -/
def extractAudio (message : LiveServerMessage) : Option (List Char) :=
  (((message.serverContent.bind ServerContent.modelTurn).bind
      (fun mt => mt.parts.head?)).bind Part.inlineData).bind InlineData.data

/-- One `onmessage` call acting on the `audioChunks` accumulator.
`if (base64Audio)` is false for an absent field and for the empty string;
a malformed chunk makes `decode` throw, modelled as `Except.error ()`
(the exception escapes the `async` callback without rejecting the
request's promise). -/
def onmessageE (audioChunks : List (List Nat)) (message : LiveServerMessage) :
    Except Unit (List (List Nat)) :=
  match extractAudio message with
  | some base64Audio =>
    if base64Audio = [] then .ok audioChunks
    else
      match decodeB64 base64Audio with
      | some decodedChunk => .ok (audioChunks ++ [decodedChunk])
      | none => .error ()
  | none => .ok audioChunks

/-- A delivered message as the rest of the system observes it: an
exception thrown inside the `async` callback is swallowed (unhandled
promise rejection), leaving the accumulator unchanged. -/
def deliver (audioChunks : List (List Nat)) (message : LiveServerMessage) :
    List (List Nat) :=
  match onmessageE audioChunks message with
  | .ok st => st
  | .error _ => audioChunks

/-- The concatenation step of `onclose`: compute the total length, allocate
a zero `Uint8Array`, copy each chunk at its running offset. -/
def concatChunks (audioChunks : List (List Nat)) : List Nat :=
  let totalLength := audioChunks.foldl (fun acc chunk => acc + chunk.length) 0
  let fullAudio := List.replicate totalLength 0
  (audioChunks.foldl
      (fun st chunk => (writeBytes st.1 st.2 chunk, st.2 + chunk.length))
      (fullAudio, 0)).1

/-- Caller-visible outcome of a normally closed session. -/
inductive Outcome where
  | wav (bytes : List Nat)
  | errNoAudio
  deriving DecidableEq

/-- `onclose`: with at least one accumulated chunk, resolve with the WAV
built from the concatenation; with none, reject with the
`"No audio data was received from the API."` error. -/
def onclose (audioChunks : List (List Nat)) : Outcome :=
  if audioChunks.length > 0 then .wav (pcmToWav (concatChunks audioChunks))
  else .errNoAudio

/-- A session that delivers the given messages in order and then closes
normally. -/
def runSession (messages : List LiveServerMessage) : Outcome :=
  onclose (messages.foldl deliver [])

/-- A server message carrying exactly one audio part with the given
base64 payload. -/
def mkAudioMsg (base64 : List Char) : LiveServerMessage :=
  { serverContent := some
      { modelTurn := some { parts := [{ inlineData := some { data := some base64 } }] },
        turnComplete := false } }

/-! ## Helper lemmas: list surgery -/

theorem take_append_len {α : Type} (a b : List α) (k : Nat) (h : a.length = k) :
    (a ++ b).take k = a := by
  subst h; exact List.take_left a b

theorem drop_append_len {α : Type} (a b : List α) (k : Nat) (h : a.length = k) :
    (a ++ b).drop k = b := by
  subst h; exact List.drop_left a b

/-- Writing `chunk` at the end of an already-written prefix of a
zero-initialised buffer extends the prefix and leaves the remaining
zeros in place. -/
theorem writeBytes_step (pre chunk : List Nat) (off c m : Nat)
    (hoff : pre.length = off) (hc : chunk.length = c) :
    writeBytes (pre ++ List.replicate (c + m) 0) off chunk =
      (pre ++ chunk) ++ List.replicate m 0 := by
  subst hoff; subst hc
  unfold writeBytes
  rw [take_append_len pre (List.replicate (chunk.length + m) 0) pre.length rfl]
  rw [List.replicate_add, ← List.append_assoc]
  rw [drop_append_len (pre ++ List.replicate chunk.length 0) (List.replicate m 0)
        (pre.length + chunk.length) (by simp)]

/-- Final write: the chunk exactly fills the remaining zeros. -/
theorem writeBytes_last (pre chunk : List Nat) (off : Nat) (hoff : pre.length = off) :
    writeBytes (pre ++ List.replicate chunk.length 0) off chunk = pre ++ chunk := by
  have h := writeBytes_step pre chunk off chunk.length 0 hoff rfl
  simpa using h

/-! ## The WAV writer in normal form -/

/-- `pcmToWav` produces exactly the 44 fixed-format header bytes followed
by the payload. -/
theorem pcmToWav_eq (p : List Nat) : pcmToWav p = wavHeader p.length ++ p := by
  simp only [pcmToWav]
  rw [show (24000 * 1 * 16 / 8 : Nat) = 48000 from by norm_num]
  rw [show (1 * 16 / 8 : Nat) = 2 from by norm_num]
  rw [show List.replicate (44 + p.length) (0 : Nat) =
        [] ++ List.replicate (4 + (40 + p.length)) 0 from by
      rw [List.nil_append]; congr 1; omega]
  rw [writeBytes_step [] [82, 73, 70, 70] 0 4 (40 + p.length) rfl rfl]
  rw [List.nil_append]
  rw [show List.replicate (40 + p.length) (0 : Nat) =
        List.replicate (4 + (36 + p.length)) 0 from by congr 1; omega]
  rw [writeBytes_step [82, 73, 70, 70] (u32le (36 + p.length)) 4 4 (36 + p.length) rfl rfl]
  rw [show List.replicate (36 + p.length) (0 : Nat) =
        List.replicate (4 + (32 + p.length)) 0 from by congr 1; omega]
  rw [writeBytes_step ([82, 73, 70, 70] ++ u32le (36 + p.length))
        [87, 65, 86, 69] 8 4 (32 + p.length) (by simp [u32le]) rfl]
  rw [show List.replicate (32 + p.length) (0 : Nat) =
        List.replicate (4 + (28 + p.length)) 0 from by congr 1; omega]
  rw [writeBytes_step ([82, 73, 70, 70] ++ u32le (36 + p.length) ++ [87, 65, 86, 69])
        [102, 109, 116, 32] 12 4 (28 + p.length) (by simp [u32le]) rfl]
  rw [show List.replicate (28 + p.length) (0 : Nat) =
        List.replicate (4 + (24 + p.length)) 0 from by congr 1; omega]
  rw [writeBytes_step ([82, 73, 70, 70] ++ u32le (36 + p.length) ++ [87, 65, 86, 69] ++
        [102, 109, 116, 32]) (u32le 16) 16 4 (24 + p.length) (by simp [u32le]) rfl]
  rw [show List.replicate (24 + p.length) (0 : Nat) =
        List.replicate (2 + (22 + p.length)) 0 from by congr 1; omega]
  rw [writeBytes_step ([82, 73, 70, 70] ++ u32le (36 + p.length) ++ [87, 65, 86, 69] ++
        [102, 109, 116, 32] ++ u32le 16) (u16le 1) 20 2 (22 + p.length) (by simp [u32le]) rfl]
  rw [show List.replicate (22 + p.length) (0 : Nat) =
        List.replicate (2 + (20 + p.length)) 0 from by congr 1; omega]
  rw [writeBytes_step ([82, 73, 70, 70] ++ u32le (36 + p.length) ++ [87, 65, 86, 69] ++
        [102, 109, 116, 32] ++ u32le 16 ++ u16le 1) (u16le 1) 22 2 (20 + p.length) (by simp [u32le, u16le]) rfl]
  rw [show List.replicate (20 + p.length) (0 : Nat) =
        List.replicate (4 + (16 + p.length)) 0 from by congr 1; omega]
  rw [writeBytes_step ([82, 73, 70, 70] ++ u32le (36 + p.length) ++ [87, 65, 86, 69] ++
        [102, 109, 116, 32] ++ u32le 16 ++ u16le 1 ++ u16le 1)
        (u32le 24000) 24 4 (16 + p.length) (by simp [u32le, u16le]) rfl]
  rw [show List.replicate (16 + p.length) (0 : Nat) =
        List.replicate (4 + (12 + p.length)) 0 from by congr 1; omega]
  rw [writeBytes_step ([82, 73, 70, 70] ++ u32le (36 + p.length) ++ [87, 65, 86, 69] ++
        [102, 109, 116, 32] ++ u32le 16 ++ u16le 1 ++ u16le 1 ++ u32le 24000)
        (u32le 48000) 28 4 (12 + p.length) (by simp [u32le, u16le]) rfl]
  rw [show List.replicate (12 + p.length) (0 : Nat) =
        List.replicate (2 + (10 + p.length)) 0 from by congr 1; omega]
  rw [writeBytes_step ([82, 73, 70, 70] ++ u32le (36 + p.length) ++ [87, 65, 86, 69] ++
        [102, 109, 116, 32] ++ u32le 16 ++ u16le 1 ++ u16le 1 ++ u32le 24000 ++ u32le 48000)
        (u16le 2) 32 2 (10 + p.length) (by simp [u32le, u16le]) rfl]
  rw [show List.replicate (10 + p.length) (0 : Nat) =
        List.replicate (2 + (8 + p.length)) 0 from by congr 1; omega]
  rw [writeBytes_step ([82, 73, 70, 70] ++ u32le (36 + p.length) ++ [87, 65, 86, 69] ++
        [102, 109, 116, 32] ++ u32le 16 ++ u16le 1 ++ u16le 1 ++ u32le 24000 ++ u32le 48000 ++
        u16le 2) (u16le 16) 34 2 (8 + p.length) (by simp [u32le, u16le]) rfl]
  rw [show List.replicate (8 + p.length) (0 : Nat) =
        List.replicate (4 + (4 + p.length)) 0 from by congr 1; omega]
  rw [writeBytes_step ([82, 73, 70, 70] ++ u32le (36 + p.length) ++ [87, 65, 86, 69] ++
        [102, 109, 116, 32] ++ u32le 16 ++ u16le 1 ++ u16le 1 ++ u32le 24000 ++ u32le 48000 ++
        u16le 2 ++ u16le 16) [100, 97, 116, 97] 36 4 (4 + p.length) (by simp [u32le, u16le]) rfl]
  rw [writeBytes_step ([82, 73, 70, 70] ++ u32le (36 + p.length) ++ [87, 65, 86, 69] ++
        [102, 109, 116, 32] ++ u32le 16 ++ u16le 1 ++ u16le 1 ++ u32le 24000 ++ u32le 48000 ++
        u16le 2 ++ u16le 16 ++ [100, 97, 116, 97]) (u32le p.length) 40 4 p.length (by simp [u32le, u16le]) rfl]
  rw [writeBytes_last ([82, 73, 70, 70] ++ u32le (36 + p.length) ++ [87, 65, 86, 69] ++
        [102, 109, 116, 32] ++ u32le 16 ++ u16le 1 ++ u16le 1 ++ u32le 24000 ++ u32le 48000 ++
        u16le 2 ++ u16le 16 ++ [100, 97, 116, 97] ++ u32le p.length) p 44 (by simp [u32le, u16le])]
  simp [wavHeader, List.append_assoc]

theorem wavHeader_length (n : Nat) : (wavHeader n).length = 44 := by
  simp [wavHeader, u32le, u16le]

/-- A 4-byte little-endian field decodes back to its value below `2^32`. -/
theorem le32_u32le (v : Nat) (h : v < 4294967296) : le32 (u32le v) = v := by
  simp only [u32le, le32]
  omega

/-! ## Base64 roundtrip -/

/-- The alphabet map is injective below 64 and inverted by `b64Val`. -/
theorem b64Val_b64Char : ∀ i, i < 64 → b64Val (b64Char i) = some i := by decide

theorem b64Char_ne_eq : ∀ i, i < 64 → b64Char i ≠ '=' := by decide

theorem isB64Ws_b64Char : ∀ i, i < 64 → isB64Ws (b64Char i) = false := by decide

/-- `encodeB64` without the trailing padding characters. -/
def bodyB64 : List Nat → List Char
  | [] => []
  | [b0] => [b64Char (b0 / 4), b64Char (b0 % 4 * 16)]
  | [b0, b1] => [b64Char (b0 / 4), b64Char (b0 % 4 * 16 + b1 / 16), b64Char (b1 % 16 * 4)]
  | b0 :: b1 :: b2 :: rest =>
      b64Char (b0 / 4) :: b64Char (b0 % 4 * 16 + b1 / 16) ::
        b64Char (b1 % 16 * 4 + b2 / 64) :: b64Char (b2 % 64) :: bodyB64 rest

/-- The padding appended for a byte string of length `n`. -/
def padOf (n : Nat) : List Char :=
  if n % 3 = 1 then ['=', '='] else if n % 3 = 2 then ['='] else []

/-- The 6-bit groups encoded by `bodyB64`. -/
def sixbits : List Nat → List Nat
  | [] => []
  | [b0] => [b0 / 4, b0 % 4 * 16]
  | [b0, b1] => [b0 / 4, b0 % 4 * 16 + b1 / 16, b1 % 16 * 4]
  | b0 :: b1 :: b2 :: rest =>
      b0 / 4 :: (b0 % 4 * 16 + b1 / 16) :: (b1 % 16 * 4 + b2 / 64) :: b2 % 64 :: sixbits rest

theorem encodeB64_eq_body_pad : ∀ bs : List Nat,
    encodeB64 bs = bodyB64 bs ++ padOf bs.length := by
  intro bs
  induction bs using encodeB64.induct with
  | case1 => simp [encodeB64, bodyB64, padOf]
  | case2 b0 => simp [encodeB64, bodyB64, padOf]
  | case3 b0 b1 => simp [encodeB64, bodyB64, padOf]
  | case4 b0 b1 b2 rest ih =>
    simp only [encodeB64, bodyB64, ih, List.length_cons]
    have : (rest.length + 1 + 1 + 1) % 3 = rest.length % 3 := by omega
    simp [padOf, this, List.cons_append]

/-- Every character of the unpadded body is an alphabet character. -/
theorem mem_bodyB64 : ∀ bs : List Nat, (∀ b ∈ bs, b < 256) →
    ∀ c ∈ bodyB64 bs, ∃ i, i < 64 ∧ c = b64Char i := by
  intro bs
  induction bs using encodeB64.induct with
  | case1 => intro _ c hc; simp [bodyB64] at hc
  | case2 b0 =>
    intro h c hc
    have hb0 : b0 < 256 := h b0 (by simp)
    simp only [bodyB64, List.mem_cons, List.mem_singleton, List.not_mem_nil, or_false] at hc
    rcases hc with rfl | rfl
    · exact ⟨b0 / 4, by omega, rfl⟩
    · exact ⟨b0 % 4 * 16, by omega, rfl⟩
  | case3 b0 b1 =>
    intro h c hc
    have hb0 : b0 < 256 := h b0 (by simp)
    have hb1 : b1 < 256 := h b1 (by simp)
    simp only [bodyB64, List.mem_cons, List.mem_singleton, List.not_mem_nil, or_false] at hc
    rcases hc with rfl | rfl | rfl
    · exact ⟨b0 / 4, by omega, rfl⟩
    · exact ⟨b0 % 4 * 16 + b1 / 16, by omega, rfl⟩
    · exact ⟨b1 % 16 * 4, by omega, rfl⟩
  | case4 b0 b1 b2 rest ih =>
    intro h c hc
    have hb0 : b0 < 256 := h b0 (by simp)
    have hb1 : b1 < 256 := h b1 (by simp)
    have hb2 : b2 < 256 := h b2 (by simp)
    have hrest : ∀ b ∈ rest, b < 256 := fun b hb => h b (by simp [hb])
    simp only [bodyB64, List.mem_cons] at hc
    rcases hc with rfl | rfl | rfl | rfl | hc
    · exact ⟨b0 / 4, by omega, rfl⟩
    · exact ⟨b0 % 4 * 16 + b1 / 16, by omega, rfl⟩
    · exact ⟨b1 % 16 * 4 + b2 / 64, by omega, rfl⟩
    · exact ⟨b2 % 64, by omega, rfl⟩
    · exact ih hrest c hc

/-- Characters of the full encoding: alphabet characters or `'='`. -/
theorem mem_encodeB64 (bs : List Nat) (h : ∀ b ∈ bs, b < 256) :
    ∀ c ∈ encodeB64 bs, c = '=' ∨ ∃ i, i < 64 ∧ c = b64Char i := by
  intro c hc
  rw [encodeB64_eq_body_pad] at hc
  rcases List.mem_append.1 hc with hbody | hpad
  · exact Or.inr (mem_bodyB64 bs h c hbody)
  · left
    unfold padOf at hpad
    split at hpad <;> simp_all

/-- No character of the encoding is ASCII whitespace. -/
theorem encodeB64_no_ws (bs : List Nat) (h : ∀ b ∈ bs, b < 256) :
    (encodeB64 bs).filter (fun c => ! isB64Ws c) = encodeB64 bs := by
  rw [List.filter_eq_self]
  intro c hc
  rcases mem_encodeB64 bs h c hc with rfl | ⟨i, hi, rfl⟩
  · decide
  · simp [isB64Ws_b64Char i hi]

theorem bodyB64_length : ∀ bs : List Nat,
    (bodyB64 bs).length = bs.length + (bs.length + 2) / 3 := by
  intro bs
  induction bs using encodeB64.induct with
  | case1 => simp [bodyB64]
  | case2 b0 => simp [bodyB64]
  | case3 b0 b1 => simp [bodyB64]
  | case4 b0 b1 b2 rest ih => simp [bodyB64, ih]; omega

theorem encodeB64_length_mod4 : ∀ bs : List Nat, (encodeB64 bs).length % 4 = 0 := by
  intro bs
  induction bs using encodeB64.induct with
  | case1 => simp [encodeB64]
  | case2 b0 => simp [encodeB64]
  | case3 b0 b1 => simp [encodeB64]
  | case4 b0 b1 b2 rest ih => simp [encodeB64]; omega

theorem stripPadRev_two (r : List Char) : stripPadRev ('=' :: '=' :: r) = r := rfl

theorem stripPadRev_one {c : Char} (h : c ≠ '=') (r : List Char) :
    stripPadRev ('=' :: c :: r) = c :: r := by
  unfold stripPadRev
  split
  · simp_all
  · simp_all
  · rename_i hno1 hno2
    exact absurd rfl (hno2 (c :: r))

theorem stripPadRev_noEq {d : Char} (h : d ≠ '=') (r : List Char) :
    stripPadRev (d :: r) = d :: r := by
  unfold stripPadRev
  split
  · simp_all
  · simp_all
  · rfl

theorem stripPad_eq_self {e : List Char} (h : '=' ∉ e) : stripPad e = e := by
  rcases he : e.reverse with _ | ⟨d, r⟩
  · have : e = [] := by simpa using congrArg List.reverse he
    simp [this, stripPad, stripPadRev]
  · have hd : d ≠ '=' := by
      intro hde
      apply h
      rw [← List.mem_reverse, he, hde]
      simp
    rw [stripPad, he, stripPadRev_noEq hd, ← he, List.reverse_reverse]

theorem stripPad_append_two (l : List Char) : stripPad (l ++ ['=', '=']) = l := by
  rw [stripPad, List.reverse_append]
  simp only [List.reverse_cons, List.reverse_nil, List.nil_append, List.cons_append]
  rw [stripPadRev_two, List.reverse_reverse]

/-- Stripping one trailing `'='` from a list that contains none. -/
theorem stripPad_append_pad1 {l : List Char} (hne : l ≠ []) (h : '=' ∉ l) :
    stripPad (l ++ ['=']) = l := by
  rcases List.eq_nil_or_concat l with rfl | ⟨l2, c, rfl⟩
  · exact absurd rfl hne
  · have hc : c ≠ '=' := fun hc => h (by simp [hc])
    rw [List.concat_eq_append]
    rw [stripPad, List.append_assoc]
    rw [show ([c] ++ ['='] : List Char) = [c, '='] from rfl]
    rw [List.reverse_append]
    rw [show ([c, '='] : List Char).reverse = ['=', c] from by simp]
    rw [show (['=', c] ++ l2.reverse : List Char) = '=' :: c :: l2.reverse from rfl]
    rw [stripPadRev_one hc]
    simp

/-- Stripping the padding from the encoding recovers the body. -/
theorem stripPad_encodeB64 (bs : List Nat) (h : ∀ b ∈ bs, b < 256) :
    stripPad (encodeB64 bs) = bodyB64 bs := by
  rw [encodeB64_eq_body_pad]
  rcases h3 : bs.length % 3 with _ | _ | _ | k
  · rw [show padOf bs.length = [] from by simp [padOf, h3]]
    rw [List.append_nil]
    refine stripPad_eq_self fun hmem => ?_
    rcases mem_bodyB64 bs h '=' hmem with ⟨i, hi, hchar⟩
    exact b64Char_ne_eq i hi hchar.symm
  · rw [show padOf bs.length = ['=', '='] from by simp [padOf, h3]]
    exact stripPad_append_two _
  · rw [show padOf bs.length = ['='] from by simp [padOf, h3]]
    have hnomem : '=' ∉ bodyB64 bs := by
      intro hmem
      rcases mem_bodyB64 bs h '=' hmem with ⟨i, hi, hchar⟩
      exact b64Char_ne_eq i hi hchar.symm
    have hne : bodyB64 bs ≠ [] := by
      have hlen := bodyB64_length bs
      intro hnil
      rw [hnil] at hlen
      simp at hlen
      omega
    exact stripPad_append_pad1 hne hnomem
  · omega

theorem mapB64Vals_cons {c : Char} {v : Nat} {cs : List Char} {vs : List Nat}
    (h1 : b64Val c = some v) (h2 : mapB64Vals cs = some vs) :
    mapB64Vals (c :: cs) = some (v :: vs) := by
  simp [mapB64Vals, h1, h2]

theorem mapB64Vals_bodyB64 : ∀ bs : List Nat, (∀ b ∈ bs, b < 256) →
    mapB64Vals (bodyB64 bs) = some (sixbits bs) := by
  intro bs
  induction bs using encodeB64.induct with
  | case1 => intro _; simp [bodyB64, sixbits, mapB64Vals]
  | case2 b0 =>
    intro h
    have hb0 : b0 < 256 := h b0 (by simp)
    exact mapB64Vals_cons (b64Val_b64Char _ (by omega))
      (mapB64Vals_cons (b64Val_b64Char _ (by omega)) rfl)
  | case3 b0 b1 =>
    intro h
    have hb0 : b0 < 256 := h b0 (by simp)
    have hb1 : b1 < 256 := h b1 (by simp)
    exact mapB64Vals_cons (b64Val_b64Char _ (by omega))
      (mapB64Vals_cons (b64Val_b64Char _ (by omega))
        (mapB64Vals_cons (b64Val_b64Char _ (by omega)) rfl))
  | case4 b0 b1 b2 rest ih =>
    intro h
    have hb0 : b0 < 256 := h b0 (by simp)
    have hb1 : b1 < 256 := h b1 (by simp)
    have hb2 : b2 < 256 := h b2 (by simp)
    have hrest : ∀ b ∈ rest, b < 256 := fun b hb => h b (by simp [hb])
    exact mapB64Vals_cons (b64Val_b64Char _ (by omega))
      (mapB64Vals_cons (b64Val_b64Char _ (by omega))
        (mapB64Vals_cons (b64Val_b64Char _ (by omega))
          (mapB64Vals_cons (b64Val_b64Char _ (by omega)) (ih hrest))))

theorem b64Assemble_sixbits : ∀ bs : List Nat, (∀ b ∈ bs, b < 256) →
    b64Assemble (sixbits bs) = bs := by
  intro bs
  induction bs using encodeB64.induct with
  | case1 => intro _; rfl
  | case2 b0 =>
    intro h
    have hb0 : b0 < 256 := h b0 (by simp)
    simp only [sixbits, b64Assemble, List.cons.injEq, and_true]
    omega
  | case3 b0 b1 =>
    intro h
    have hb0 : b0 < 256 := h b0 (by simp)
    have hb1 : b1 < 256 := h b1 (by simp)
    simp only [sixbits, b64Assemble, List.cons.injEq, and_true]
    omega
  | case4 b0 b1 b2 rest ih =>
    intro h
    have hb0 : b0 < 256 := h b0 (by simp)
    have hb1 : b1 < 256 := h b1 (by simp)
    have hb2 : b2 < 256 := h b2 (by simp)
    have hrest : ∀ b ∈ rest, b < 256 := fun b hb => h b (by simp [hb])
    simp only [sixbits, b64Assemble, ih hrest, List.cons.injEq]
    exact ⟨by omega, by omega, by omega, trivial⟩

/-- Round trip: decoding the encoding of any byte string recovers it
(`atob(btoa(s)) = s`). -/
theorem decodeB64_encodeB64 (bs : List Nat) (h : ∀ b ∈ bs, b < 256) :
    decodeB64 (encodeB64 bs) = some bs := by
  simp only [decodeB64]
  rw [encodeB64_no_ws bs h]
  rw [if_pos (encodeB64_length_mod4 bs)]
  rw [stripPad_encodeB64 bs h]
  rw [if_neg (by rw [bodyB64_length]; omega)]
  rw [mapB64Vals_bodyB64 bs h]
  rw [Option.map_some']
  rw [b64Assemble_sixbits bs h]

/-! ## The concatenation step of `onclose` -/

theorem foldl_len (chunks : List (List Nat)) : ∀ k : Nat,
    chunks.foldl (fun acc chunk => acc + chunk.length) k = k + chunks.flatten.length := by
  induction chunks with
  | nil => intro k; simp
  | cons c cs ih =>
    intro k
    rw [List.foldl_cons, ih (k + c.length), List.flatten_cons]
    simp
    omega

theorem concat_aux (chunks : List (List Nat)) : ∀ pre : List Nat,
    (chunks.foldl (fun st chunk => (writeBytes st.1 st.2 chunk, st.2 + chunk.length))
      (pre ++ List.replicate chunks.flatten.length 0, pre.length)).1 = pre ++ chunks.flatten := by
  induction chunks with
  | nil => intro pre; simp
  | cons c cs ih =>
    intro pre
    rw [List.flatten_cons, List.foldl_cons]
    rw [show (c ++ cs.flatten).length = c.length + cs.flatten.length from by simp]
    rw [writeBytes_step pre c pre.length c.length cs.flatten.length rfl rfl]
    rw [show pre.length + c.length = (pre ++ c).length from by simp]
    rw [ih (pre ++ c)]
    simp

/-- The allocate-once-and-copy concatenation equals plain list
concatenation in order. -/
theorem concatChunks_eq_flatten (chunks : List (List Nat)) :
    concatChunks chunks = chunks.flatten := by
  simp only [concatChunks]
  rw [foldl_len chunks 0]
  rw [show 0 + chunks.flatten.length = chunks.flatten.length from by omega]
  have h := concat_aux chunks []
  simpa using h

/-! ## Delivery of audio messages -/

theorem extractAudio_mkAudioMsg (b64 : List Char) :
    extractAudio (mkAudioMsg b64) = some b64 := rfl

theorem encodeB64_ne_nil {c : List Nat} (hne : c ≠ []) : encodeB64 c ≠ [] := by
  rcases c with _ | ⟨b0, _ | ⟨b1, rest⟩⟩
  · exact absurd rfl hne
  · simp [encodeB64]
  · rcases rest with _ | ⟨b2, rest⟩ <;> simp [encodeB64]

theorem deliver_audio (st : List (List Nat)) (c : List Nat) (hne : c ≠ [])
    (hb : ∀ b ∈ c, b < 256) :
    deliver st (mkAudioMsg (encodeB64 c)) = st ++ [c] := by
  simp only [deliver, onmessageE, extractAudio_mkAudioMsg]
  rw [if_neg (encodeB64_ne_nil hne)]
  rw [decodeB64_encodeB64 c hb]

theorem foldl_deliver_append : ∀ (cs : List (List Nat)) (acc : List (List Nat)),
    (∀ c ∈ cs, c ≠ []) → (∀ c ∈ cs, ∀ b ∈ c, b < 256) →
    (cs.map fun c => mkAudioMsg (encodeB64 c)).foldl deliver acc = acc ++ cs := by
  intro cs
  induction cs with
  | nil => intro acc _ _; simp
  | cons c cs ih =>
    intro acc h1 h2
    simp only [List.map_cons, List.foldl_cons]
    rw [deliver_audio acc c (h1 c (by simp)) (h2 c (by simp))]
    rw [ih (acc ++ [c]) (fun x hx => h1 x (by simp [hx])) (fun x hx => h2 x (by simp [hx]))]
    simp

/-! ## PCM encoder lemmas -/

theorem clamp01_mem (s : ℚ) : -1 ≤ clamp01 s ∧ clamp01 s ≤ 1 := by
  unfold clamp01
  refine ⟨le_max_left _ _, max_le (by norm_num) (min_le_left _ _)⟩

theorem clamp01_of_gt {s : ℚ} (h : 1 < s) : clamp01 s = 1 := by
  unfold clamp01
  rw [min_eq_left h.le]
  exact max_eq_right (by norm_num)

theorem clamp01_of_lt {s : ℚ} (h : s < -1) : clamp01 s = -1 := by
  unfold clamp01
  rw [min_eq_right (by linarith : s ≤ 1)]
  exact max_eq_left (by linarith)

theorem pcmSample_of_gt {s : ℚ} (h : 1 < s) : pcmSample s = 32767 := by
  unfold pcmSample
  rw [clamp01_of_gt h]
  rw [show (1 : ℚ) * 32767 = ((32767 : ℤ) : ℚ) from by norm_num]
  unfold truncTowardZero
  rw [if_pos (by norm_num), Int.floor_intCast]
  unfold toInt16
  omega

theorem pcmSample_of_lt {s : ℚ} (h : s < -1) : pcmSample s = -32767 := by
  unfold pcmSample
  rw [clamp01_of_lt h]
  rw [show (-1 : ℚ) * 32767 = (((-32767 : ℤ)) : ℚ) from by norm_num]
  unfold truncTowardZero
  rw [if_neg (by norm_num), Int.ceil_intCast]
  unfold toInt16
  omega

theorem pcmSample_zero : pcmSample 0 = 0 := by
  unfold pcmSample
  rw [show clamp01 0 = 0 from by unfold clamp01; norm_num]
  rw [show (0 : ℚ) * 32767 = ((0 : ℤ) : ℚ) from by norm_num]
  unfold truncTowardZero
  rw [if_pos (by norm_num), Int.floor_intCast]
  unfold toInt16
  omega

theorem pcmSample_mem (s : ℚ) : -32767 ≤ pcmSample s ∧ pcmSample s ≤ 32767 := by
  have hc := clamp01_mem s
  have hq1 : ((-32767 : ℤ) : ℚ) ≤ clamp01 s * 32767 := by
    rw [show ((-32767 : ℤ) : ℚ) = -32767 from by norm_num]
    nlinarith [hc.1]
  have hq2 : clamp01 s * 32767 ≤ ((32767 : ℤ) : ℚ) := by
    rw [show ((32767 : ℤ) : ℚ) = 32767 from by norm_num]
    nlinarith [hc.2]
  have ht : -32767 ≤ truncTowardZero (clamp01 s * 32767) ∧
      truncTowardZero (clamp01 s * 32767) ≤ 32767 := by
    unfold truncTowardZero
    split
    · next h0 =>
      have hlo : (0 : ℤ) ≤ ⌊clamp01 s * 32767⌋ := Int.floor_nonneg.mpr h0
      have hhi : ⌊clamp01 s * 32767⌋ ≤ ⌊((32767 : ℤ) : ℚ)⌋ := Int.floor_le_floor hq2
      rw [Int.floor_intCast] at hhi
      omega
    · next h0 =>
      push_neg at h0
      have hlo : ⌈((-32767 : ℤ) : ℚ)⌉ ≤ ⌈clamp01 s * 32767⌉ := Int.ceil_le_ceil hq1
      rw [Int.ceil_intCast] at hlo
      have hhi : ⌈clamp01 s * 32767⌉ ≤ 0 := Int.ceil_le.mpr (by push_cast; exact h0.le)
      omega
  unfold pcmSample toInt16
  omega

theorem encodePcm_cons (s : ℚ) (ss : List ℚ) :
    encodePcm (s :: ss) = int16leBytes (pcmSample s) ++ encodePcm ss := by
  simp [encodePcm]

theorem encodePcm_length (samples : List ℚ) :
    (encodePcm samples).length = 2 * samples.length := by
  induction samples with
  | nil => rfl
  | cons s ss ih =>
    rw [encodePcm_cons, List.length_append, ih]
    rw [show (int16leBytes (pcmSample s)).length = 2 from rfl]
    simp
    omega

theorem encodePcm_zeros : ∀ n : Nat,
    encodePcm (List.replicate n 0) = List.replicate (2 * n) 0 := by
  intro n
  induction n with
  | zero => rfl
  | succ k ih =>
    rw [List.replicate_succ, encodePcm_cons, ih, pcmSample_zero]
    rw [show int16leBytes 0 = [0, 0] from by simp [int16leBytes]]
    rw [show 2 * (k + 1) = 2 + 2 * k from by ring]
    rw [List.replicate_add]
    rfl

/-! ## Claims -/

/-- Claim C1: for every PCM payload whose size fits the 32-bit header
fields, `pcmToWav` produces exactly `44 + len(payload)` bytes consisting of
the fixed little-endian header table in offset order — `RIFF` at 0,
u32 `36 + dataSize` at 4, `WAVE` at 8, `fmt ` at 12, u32 16 at 16, u16 1 at
20, channels (1) at 22, sample rate (24000) at 24, byte rate (48000) at 28,
block align (2) at 32, bits per sample (16) at 34, `data` at 36, u32
`dataSize` at 40 — followed by the payload verbatim from offset 44; the
declared data and RIFF chunk sizes decode back to exactly `dataSize` and
`36 + dataSize`. -/
theorem pcmToWav_layout (p : List Nat) (h : 36 + p.length < 4294967296) :
    (pcmToWav p).length = 44 + p.length ∧
    pcmToWav p =
      [82, 73, 70, 70] ++ u32le (36 + p.length) ++ [87, 65, 86, 69] ++
        [102, 109, 116, 32] ++ u32le 16 ++ u16le 1 ++ u16le 1 ++ u32le 24000 ++
        u32le 48000 ++ u16le 2 ++ u16le 16 ++ [100, 97, 116, 97] ++
        u32le p.length ++ p ∧
    le32 (((pcmToWav p).drop 4).take 4) = 36 + p.length ∧
    le32 (((pcmToWav p).drop 40).take 4) = p.length ∧
    (pcmToWav p).drop 44 = p := by
  refine ⟨?_, ?_, ?_, ?_, ?_⟩
  · rw [pcmToWav_eq, List.length_append, wavHeader_length]
  · rw [pcmToWav_eq]
    simp [wavHeader, List.append_assoc]
  · have hsplit : pcmToWav p = [82, 73, 70, 70] ++ (u32le (36 + p.length) ++
        ([87, 65, 86, 69] ++ [102, 109, 116, 32] ++ u32le 16 ++ u16le 1 ++ u16le 1 ++
          u32le 24000 ++ u32le 48000 ++ u16le 2 ++ u16le 16 ++ [100, 97, 116, 97] ++
          u32le p.length ++ p)) := by
      rw [pcmToWav_eq]
      simp [wavHeader, List.append_assoc]
    rw [hsplit, drop_append_len [82, 73, 70, 70] _ 4 rfl,
      take_append_len (u32le (36 + p.length)) _ 4 (by simp [u32le]),
      le32_u32le _ (by omega)]
  · have hsplit : pcmToWav p = ([82, 73, 70, 70] ++ u32le (36 + p.length) ++
        [87, 65, 86, 69] ++ [102, 109, 116, 32] ++ u32le 16 ++ u16le 1 ++ u16le 1 ++
        u32le 24000 ++ u32le 48000 ++ u16le 2 ++ u16le 16 ++ [100, 97, 116, 97]) ++
        (u32le p.length ++ p) := by
      rw [pcmToWav_eq]
      simp [wavHeader, List.append_assoc]
    rw [hsplit,
      drop_append_len ([82, 73, 70, 70] ++ u32le (36 + p.length) ++ [87, 65, 86, 69] ++
        [102, 109, 116, 32] ++ u32le 16 ++ u16le 1 ++ u16le 1 ++ u32le 24000 ++
        u32le 48000 ++ u16le 2 ++ u16le 16 ++ [100, 97, 116, 97]) _ 40
        (by simp [u32le, u16le]),
      take_append_len (u32le p.length) p 4 (by simp [u32le]),
      le32_u32le _ (by omega)]
  · rw [pcmToWav_eq, drop_append_len _ p 44 (wavHeader_length p.length)]

theorem pcmToWav_layout_witness :
    36 + ([7] : List Nat).length < 4294967296 ∧
    (pcmToWav [7]).length = 45 ∧
    le32 (((pcmToWav [7]).drop 4).take 4) = 37 ∧
    le32 (((pcmToWav [7]).drop 40).take 4) = 1 ∧
    (pcmToWav [7]).drop 44 = [7] := by
  have h := pcmToWav_layout [7] (by norm_num)
  exact ⟨by norm_num, h.1, h.2.2.1, h.2.2.2.1, h.2.2.2.2⟩

/-- Claim C2, counterexample to the claim as stated: a single *empty*
chunk (n = 1) is not reassembled.  `encode([]) = ""` and the
`if (base64Audio)` truthiness guard treats the empty string as absent, so
the chunk is dropped from the accumulator and finalization reports the
empty-result error instead of returning the 0-byte concatenation. -/
theorem assembler_empty_chunk_cex :
    (([([] : List Nat)]).map fun c => mkAudioMsg (encodeB64 c)).foldl deliver [] ≠
      [([] : List Nat)] ∧
    runSession (([([] : List Nat)]).map fun c => mkAudioMsg (encodeB64 c)) =
      Outcome.errNoAudio := by
  exact ⟨by decide, by decide⟩

/-- Claim C2 (amended): for every ordered list of `n ≥ 1` *nonempty* byte
chunks delivered one at a time (each base64-encoded, then decoded by the
handler), the accumulator holds exactly the decoded chunks in arrival
order — none reordered, dropped or duplicated — and finalization returns
exactly the raw concatenation `c1 ++ c2 ++ ... ++ cn`, which the session
wraps in a WAV.  (Empty chunks are excluded: the source's truthiness guard
silently drops them, see the counterexample.) -/
theorem assembler_concat_exact (cs : List (List Nat)) (h0 : cs ≠ [])
    (h1 : ∀ c ∈ cs, c ≠ []) (h2 : ∀ c ∈ cs, ∀ b ∈ c, b < 256) :
    (cs.map fun c => mkAudioMsg (encodeB64 c)).foldl deliver [] = cs ∧
    concatChunks cs = cs.flatten ∧
    runSession (cs.map fun c => mkAudioMsg (encodeB64 c)) =
      Outcome.wav (pcmToWav cs.flatten) := by
  have hacc : (cs.map fun c => mkAudioMsg (encodeB64 c)).foldl deliver [] = cs := by
    have h := foldl_deliver_append cs [] h1 h2
    simpa using h
  refine ⟨hacc, concatChunks_eq_flatten cs, ?_⟩
  simp only [runSession, hacc, onclose]
  rw [if_pos (List.length_pos.mpr h0), concatChunks_eq_flatten]

theorem assembler_concat_exact_witness :
    (([[1, 2, 3, 4], [5, 6, 7, 8, 9, 10]] : List (List Nat)) ≠ [] ∧
      (∀ c ∈ ([[1, 2, 3, 4], [5, 6, 7, 8, 9, 10]] : List (List Nat)), c ≠ []) ∧
      (∀ c ∈ ([[1, 2, 3, 4], [5, 6, 7, 8, 9, 10]] : List (List Nat)), ∀ b ∈ c, b < 256)) ∧
    concatChunks [[1, 2, 3, 4], [5, 6, 7, 8, 9, 10]] = [1, 2, 3, 4, 5, 6, 7, 8, 9, 10] := by
  refine ⟨⟨by decide, by decide, by decide⟩, ?_⟩
  exact (assembler_concat_exact [[1, 2, 3, 4], [5, 6, 7, 8, 9, 10]]
    (by decide) (by decide) (by decide)).2.1

/-- Claim C3: every sample outside `[-1, 1]` is clamped to the boundary
before conversion — never wrapped and never rejected: any `s > 1` maps to
the maximum positive value 32767 and any `s < -1` maps to the most
negative clamped value -32767. -/
theorem pcmSample_clamps (s : ℚ) :
    (1 < s → pcmSample s = 32767) ∧ (s < -1 → pcmSample s = -32767) :=
  ⟨fun h => pcmSample_of_gt h, fun h => pcmSample_of_lt h⟩

theorem pcmSample_clamps_witness :
    ((1 : ℚ) < 2 ∧ pcmSample 2 = 32767) ∧
    ((-2 : ℚ) < -1 ∧ pcmSample (-2) = -32767) :=
  ⟨⟨by norm_num, (pcmSample_clamps 2).1 (by norm_num)⟩,
   ⟨by norm_num, (pcmSample_clamps (-2)).2 (by norm_num)⟩⟩

/-- Claim C4: if the session closes normally with zero audio chunks ever
accumulated, the request fails with the distinct empty-result error
(`"No audio data was received from the API."`) and no WAV buffer — in
particular no 44-byte empty-payload WAV — is produced. -/
theorem empty_session_error (msgs : List LiveServerMessage)
    (h : msgs.foldl deliver [] = []) :
    runSession msgs = Outcome.errNoAudio ∧
    ∀ bytes, runSession msgs ≠ Outcome.wav bytes := by
  have hrun : runSession msgs = Outcome.errNoAudio := by
    simp only [runSession, h]
    rfl
  exact ⟨hrun, fun bytes hw => by rw [hrun] at hw; exact Outcome.noConfusion hw⟩

theorem empty_session_error_witness :
    ([(⟨some ⟨none, true⟩⟩ : LiveServerMessage)].foldl deliver [] = []) ∧
    runSession [(⟨some ⟨none, true⟩⟩ : LiveServerMessage)] = Outcome.errNoAudio := by
  have h : [(⟨some ⟨none, true⟩⟩ : LiveServerMessage)].foldl deliver [] = [] := rfl
  exact ⟨h, (empty_session_error _ h).1⟩

/-- Claim C5, code behaviour at the failing input: a malformed base64
chunk makes `decode` throw inside the `async` handler (the `Except.error`
below), but the exception never rejects the request: the malformed chunk
is silently skipped and the session still resolves with a WAV built from
the remaining chunks — a WAV with a gap, contradicting the specified
fatal-decode-error behaviour. -/
theorem malformed_chunk_still_wav :
    onmessageE [[0, 0, 0]] (mkAudioMsg ['%', '%', '%', '%']) = Except.error () ∧
    runSession [mkAudioMsg ['A', 'A', 'A', 'A'], mkAudioMsg ['%', '%', '%', '%']] =
      Outcome.wav (pcmToWav [0, 0, 0]) := by
  exact ⟨rfl, rfl⟩

/-- Claim C6, counterexample to the claim as stated: the source's WAV
writer is not the parametric `toWav(payload, sampleRate, channels,
bitsPerSample)` of the spec's contract — it accepts only the payload and
hardcodes 24000/1/16, so its output differs from the parametric writer
evaluated at any other format values. -/
theorem pcmToWav_not_parametric_cex : pcmToWav [] ≠ toWav [] 8000 2 8 := by decide

/-- Claim C6 (amended): the source's WAV writer takes only the PCM payload
and hardcodes sample rate 24000, channel count 1 and bits per sample 16;
it coincides with the spec's parametric `toWav` exactly at those fixed
format constants. -/
theorem pcmToWav_eq_toWav_fixed (p : List Nat) : pcmToWav p = toWav p 24000 1 16 := by
  rw [pcmToWav_eq]
  simp [toWav, wavHeader, List.append_assoc]

/-- Claim C7: the PCM encoder returns exactly `2 × len(samples)` bytes;
the empty input yields the empty output (no error), and the 160-sample
silent priming input yields exactly 320 bytes, all zero. -/
theorem encodePcm_spec (samples : List ℚ) :
    (encodePcm samples).length = 2 * samples.length ∧
    encodePcm ([] : List ℚ) = [] ∧
    encodePcm (List.replicate 160 0) = List.replicate 320 0 := by
  refine ⟨encodePcm_length samples, rfl, ?_⟩
  rw [encodePcm_zeros 160]

/-- Claim C8: a message carrying no audio payload field (whatever the rest
of its structure) is a no-op on the accumulator and raises no error. -/
theorem no_payload_field_noop (st : List (List Nat)) (m : LiveServerMessage)
    (h : extractAudio m = none) :
    onmessageE st m = Except.ok st ∧ deliver st m = st := by
  have h1 : onmessageE st m = Except.ok st := by
    simp only [onmessageE, h]
  exact ⟨h1, by simp only [deliver, h1]⟩

theorem no_payload_field_noop_witness :
    extractAudio ⟨some ⟨none, true⟩⟩ = none ∧
    (onmessageE [[1]] ⟨some ⟨none, true⟩⟩ = Except.ok [[1]] ∧
      deliver [[1]] ⟨some ⟨none, true⟩⟩ = [[1]]) :=
  ⟨rfl, no_payload_field_noop [[1]] ⟨some ⟨none, true⟩⟩ rfl⟩

/-- Claim C9: the module's own base64 pair round-trips: decoding the text
produced by encoding any byte array returns that byte array exactly. -/
theorem decode_encode_roundtrip (bs : List Nat) (h : ∀ b ∈ bs, b < 256) :
    decodeB64 (encodeB64 bs) = some bs :=
  decodeB64_encodeB64 bs h

theorem decode_encode_roundtrip_witness :
    (∀ b ∈ ([0, 255, 77] : List Nat), b < 256) ∧
    decodeB64 (encodeB64 [0, 255, 77]) = some [0, 255, 77] :=
  ⟨by decide, decode_encode_roundtrip [0, 255, 77] (by decide)⟩

/-- Claim C10: for every input sample, the emitted 16-bit value lies in
`[-32767, 32767]` — the scale factor is 32767, so the minimum
representable 16-bit value -32768 is never produced. -/
theorem pcmSample_range (s : ℚ) :
    -32767 ≤ pcmSample s ∧ pcmSample s ≤ 32767 ∧ pcmSample s ≠ -32768 := by
  obtain ⟨h1, h2⟩ := pcmSample_mem s
  exact ⟨h1, h2, by omega⟩

end Voi
